import Mathlib

/-!
Verification of the in-process publish/subscribe event broker
(package pubsub: event types and the generic Broker).

The Go code is embedded shallowly:
  - a Go channel becomes a bounded FIFO queue (a list plus a capacity)
    together with a closed flag; a non-blocking send on a full channel is
    the identity, a send or a close on an already-closed channel is the
    runtime fault that Go reports as a panic, modelled as the none case
    of an Option result;
  - the broker state carries the active-subscriber set as a list of
    channel identifiers, a store of every channel ever allocated keyed by
    identifier (Go channels removed from the map still exist because the
    subscriber holds them), the done flag (whether the done signal channel
    is closed), the subscriber counter and the maxEvents field;
  - each lock-protected critical section of the Go code becomes one atomic
    step; the background watcher goroutine of Subscribe becomes a separate
    step (watcherFire) that may run at any later time;
  - in addition a fine-grained model splits Publish into its two phases
    (snapshot under the read lock, then per-subscriber sends outside the
    lock) so that interleavings of Publish with the watcher and Shutdown
    can be examined.
-/

namespace Pubsub

/-- EventType identifies the kind of an event (a Go string). -/
abbrev EventType := String

/-- CreatedEvent: resource created. -/
def CreatedEvent : EventType := "created"

/-- UpdatedEvent: resource updated. -/
def UpdatedEvent : EventType := "updated"

/-- DeletedEvent: resource deleted. -/
def DeletedEvent : EventType := "deleted"

/-- FinishedEvent: resource finished. -/
def FinishedEvent : EventType := "finished"

/-- Event is one event of a resource lifecycle: a type tag and a payload. -/
structure Event (T : Type) where
  type : EventType
  payload : T
deriving DecidableEq

/-- A Go channel: queued elements in FIFO order, the buffer capacity and
whether the channel has been closed. -/
structure Channel (α : Type) where
  buf : List α
  cap : Nat
  closed : Bool
deriving DecidableEq

/-- Result of a receive on a channel. -/
inductive RecvResult (α : Type) where
  | value (x : α) (rest : Channel α)
  | closed
  | wouldBlock
deriving DecidableEq

/-- Receive: yields buffered values in FIFO order; on an empty buffer a
closed channel reports end-of-stream and an open one would block. -/
def Channel.recv (c : Channel α) : RecvResult α :=
  match c.buf with
  | x :: rest => .value x { c with buf := rest }
  | [] => if c.closed then .closed else .wouldBlock

/-- Successive receives, up to the given number of values; stops early at
end-of-stream or when a receive would block. -/
def Channel.recvList (c : Channel α) : Nat → List α
  | 0 => []
  | n + 1 =>
    match c.recv with
    | .value x c2 => x :: c2.recvList n
    | _ => []

/-- The non-blocking send of Publish (select with a default branch): if the
buffer has room the value is enqueued, if the buffer is full the value is
dropped; a send on a closed channel is a runtime fault (none). -/
def Channel.trySend (c : Channel α) (x : α) : Option (Channel α) :=
  if c.closed then none
  else if c.buf.length < c.cap then some { c with buf := c.buf ++ [x] }
  else some c

/-- Go close: closing an already-closed channel is a runtime fault (none). -/
def Channel.close (c : Channel α) : Option (Channel α) :=
  if c.closed then none else some { c with closed := true }

/-- The package constant bufferSize = 64. -/
def bufferSize : Nat := 64

/-- Broker: the in-memory publisher/subscriber hub.  subs is the active
subscriber set (channel identifiers), chans the store of every channel
allocated so far, done the shutdown signal, subCount the subscriber
counter and maxEvents the maximum-events field.  nextId is the modelling
device producing fresh channel identities. -/
structure Broker (T : Type) where
  subs : List Nat
  chans : List (Nat × Channel (Event T))
  done : Bool
  subCount : Int
  maxEvents : Int
  nextId : Nat
deriving DecidableEq

/-- Look a channel up by identifier (first match). -/
def lookupCh (id : Nat) : List (Nat × Channel α) → Option (Channel α)
  | [] => none
  | p :: ps => if p.1 = id then some p.2 else lookupCh id ps

/-- Replace the channel stored under an identifier. -/
def updateCh (chans : List (Nat × Channel α)) (id : Nat) (c : Channel α) :
    List (Nat × Channel α) :=
  chans.map fun p => if p.1 = id then (id, c) else p

set_option linter.unusedVariables false in
/-- NewBrokerWithOptions: builds a broker from a channel buffer size and a
maximum event count.  Faithful to the source: the channelBufferSize
argument is not stored anywhere (the Broker struct has no field for it and
the constructor ignores it). -/
def NewBrokerWithOptions (T : Type) (channelBufferSize maxEvents : Int) : Broker T :=
  { subs := []
    chans := []
    done := false
    subCount := 0
    maxEvents := maxEvents
    nextId := 0 }

/-- NewBroker: the default constructor, bufferSize and 1000. -/
def NewBroker (T : Type) : Broker T :=
  NewBrokerWithOptions T (Int.ofNat bufferSize) 1000

/-- Close every channel of the given identifier list in the store;
propagates the runtime fault of a double close. -/
def closeAll (ids : List Nat) (chans : List (Nat × Channel α)) :
    Option (List (Nat × Channel α)) :=
  match ids with
  | [] => some chans
  | id :: rest =>
    match lookupCh id chans with
    | none => closeAll rest chans
    | some c =>
      match c.close with
      | none => none
      | some c2 => closeAll rest (updateCh chans id c2)

/-- Shutdown: if the done signal is already closed, return at once;
otherwise close the done signal, close every active subscriber channel,
empty the active set and reset the counter. -/
def Broker.Shutdown (b : Broker T) : Option (Broker T) :=
  if b.done then some b
  else
    (closeAll b.subs b.chans).map fun chans2 =>
      { b with done := true, subs := [], chans := chans2, subCount := 0 }

/-- Subscribe: on a shut-down broker, allocate a fresh unbuffered channel,
close it and hand it back unregistered; otherwise allocate a channel of
capacity bufferSize (the package constant - the configured size plays no
part), register it, and bump the counter.  Returns the new broker state and
the identifier of the returned channel.  The watcher goroutine it starts is
modelled by watcherFire below. -/
def Broker.Subscribe (b : Broker T) : Broker T × Nat :=
  if b.done then
    ({ b with
        chans := b.chans ++ [(b.nextId, ⟨[], 0, true⟩)]
        nextId := b.nextId + 1 }, b.nextId)
  else
    ({ b with
        chans := b.chans ++ [(b.nextId, ⟨[], bufferSize, false⟩)]
        subs := b.nextId :: b.subs
        subCount := b.subCount + 1
        nextId := b.nextId + 1 }, b.nextId)

/-- The body of the watcher goroutine once the context is cancelled: under
the lock, return at once if the broker has shut down; otherwise, if the
channel is still in the active set, remove it, close it and decrement the
counter. -/
def Broker.watcherFire (b : Broker T) (id : Nat) : Option (Broker T) :=
  if b.done then some b
  else if id ∈ b.subs then
    match lookupCh id b.chans with
    | none => some b
    | some c =>
      c.close.map fun c2 =>
        { b with
            subs := b.subs.erase id
            chans := updateCh b.chans id c2
            subCount := b.subCount - 1 }
  else some b

/-- Attempt the non-blocking send of one event to every channel of the
identifier list; propagates the runtime fault of a send on a closed
channel. -/
def sendAll (ids : List Nat) (e : α) (chans : List (Nat × Channel α)) :
    Option (List (Nat × Channel α)) :=
  match ids with
  | [] => some chans
  | id :: rest =>
    match lookupCh id chans with
    | none => sendAll rest e chans
    | some c =>
      match c.trySend e with
      | none => none
      | some c2 => sendAll rest e (updateCh chans id c2)

/-- Publish: if the broker has shut down, give up at once; otherwise
snapshot the active set and attempt a non-blocking send of the event to
every snapshotted channel.  In this coarse model the whole call is one
atomic step. -/
def Broker.Publish (b : Broker T) (t : EventType) (v : T) : Option (Broker T) :=
  if b.done then some b
  else (sendAll b.subs (Event.mk t v) b.chans).map fun chans2 => { b with chans := chans2 }

/-- GetSubscriberCount: the current subscriber counter. -/
def Broker.GetSubscriberCount (b : Broker T) : Int := b.subCount

/-- Iterate Publish with one fixed event. -/
def publishN (b : Broker T) (t : EventType) (v : T) : Nat → Option (Broker T)
  | 0 => some b
  | n + 1 =>
    match b.Publish t v with
    | none => none
    | some b2 => publishN b2 t v n

/-- Run a list of Publish calls in order. -/
def publishSeq (b : Broker T) : List (EventType × T) → Option (Broker T)
  | [] => some b
  | p :: ps =>
    match b.Publish p.1 p.2 with
    | none => none
    | some b2 => publishSeq b2 ps

/-- One call against the broker interface. -/
inductive Op (T : Type) where
  | subscribe
  | publish (t : EventType) (v : T)
  | shutdown
  | watcher (id : Nat)

/-- Run a sequence of interface calls (watcher steps included, so every
serialized execution is covered); a runtime fault aborts the run. -/
def runOps (b : Broker T) : List (Op T) → Option (Broker T)
  | [] => some b
  | op :: ops =>
    match
      (match op with
       | .subscribe => some b.Subscribe.1
       | .publish t v => b.Publish t v
       | .shutdown => b.Shutdown
       | .watcher id => b.watcherFire id) with
    | none => none
    | some b2 => runOps b2 ops

/-- Everything of a broker except the maxEvents field: the state on which
every observable result (subscriber count, channel contents, returned
streams, shutdown flag) depends. -/
structure BrokerObs (T : Type) where
  subs : List Nat
  chans : List (Nat × Channel (Event T))
  done : Bool
  subCount : Int
  nextId : Nat
deriving DecidableEq

/-- Forget the maxEvents field. -/
def Broker.obs (b : Broker T) : BrokerObs T :=
  ⟨b.subs, b.chans, b.done, b.subCount, b.nextId⟩

/-- Broker states reachable through the interface: construction, then any
serialized interleaving of Subscribe, Publish, Shutdown and watcher
completions. -/
inductive Reachable (T : Type) : Broker T → Prop where
  | init (cbs me : Int) : Reachable T (NewBrokerWithOptions T cbs me)
  | subscribe {b : Broker T} : Reachable T b → Reachable T b.Subscribe.1
  | publish {b b2 : Broker T} {t : EventType} {v : T} :
      Reachable T b → b.Publish t v = some b2 → Reachable T b2
  | shutdown {b b2 : Broker T} :
      Reachable T b → b.Shutdown = some b2 → Reachable T b2
  | watcher {b b2 : Broker T} {id : Nat} :
      Reachable T b → b.watcherFire id = some b2 → Reachable T b2

/-!
The fine-grained model.  Publish in the source holds the read lock only
while it snapshots the subscriber list; the per-subscriber sends happen
after the lock is released.  A Publish in flight is therefore a snapshot
plus the not-yet-attempted identifiers, and the watcher or Shutdown can
run between the snapshot and a send.  sendFault records that a send was
attempted on a closed channel (a Go panic), closeFault that a channel was
closed twice.
-/

/-- A Publish that has taken its snapshot and not yet finished its sends. -/
structure PendingPub (T : Type) where
  remaining : List Nat
  ev : Event T
deriving DecidableEq

/-- The whole system: the broker, the in-flight publishes, and the two
fault flags. -/
structure Sys (T : Type) where
  broker : Broker T
  pends : List (PendingPub T)
  sendFault : Bool
  closeFault : Bool
deriving DecidableEq

/-- Lift one atomic (lock-protected) broker operation to the system,
recording a double close as closeFault. -/
def Sys.liftAtomic (s : Sys T) (f : Broker T → Option (Broker T)) : Sys T :=
  match f s.broker with
  | none => { s with closeFault := true }
  | some b2 => { s with broker := b2 }

/-- Phase one of Publish: under the read lock, check the done signal and
snapshot the active set. -/
def Sys.publishStart (s : Sys T) (t : EventType) (v : T) : Sys T :=
  if s.broker.done then s
  else { s with pends := s.pends ++ [⟨s.broker.subs, Event.mk t v⟩] }

/-- Phase two of Publish, one step: outside the lock, attempt the
non-blocking send to the next snapshotted channel of the i-th in-flight
publish.  A send on a channel that has been closed in the meantime is the
send-on-closed-channel fault. -/
def Sys.sendStep (s : Sys T) (i : Nat) : Sys T :=
  match s.pends[i]? with
  | none => s
  | some p =>
    match p.remaining with
    | [] => { s with pends := s.pends.eraseIdx i }
    | id :: rest =>
      match lookupCh id s.broker.chans with
      | none => { s with pends := s.pends.set i ⟨rest, p.ev⟩ }
      | some c =>
        if c.closed then { s with sendFault := true }
        else
          match c.trySend p.ev with
          | none => { s with sendFault := true }
          | some c2 =>
            { s with
                broker := { s.broker with chans := updateCh s.broker.chans id c2 }
                pends := s.pends.set i ⟨rest, p.ev⟩ }

/-- System states reachable under arbitrary interleaving of the atomic
operations, the two publish phases and watcher completions. -/
inductive SysReachable (T : Type) : Sys T → Prop where
  | init (cbs me : Int) :
      SysReachable T ⟨NewBrokerWithOptions T cbs me, [], false, false⟩
  | subscribe {s : Sys T} :
      SysReachable T s →
      SysReachable T { s with broker := s.broker.Subscribe.1 }
  | shutdown {s : Sys T} :
      SysReachable T s → SysReachable T (s.liftAtomic Broker.Shutdown)
  | watcher {s : Sys T} (id : Nat) :
      SysReachable T s → SysReachable T (s.liftAtomic (Broker.watcherFire · id))
  | publishStart {s : Sys T} (t : EventType) (v : T) :
      SysReachable T s → SysReachable T (s.publishStart t v)
  | sendStep {s : Sys T} (i : Nat) :
      SysReachable T s → SysReachable T (s.sendStep i)

/-- Every channel of the identifier list that is present in the store is
still open. -/
def OpenOn (ids : List Nat) (chans : List (Nat × Channel α)) : Prop :=
  ∀ id ∈ ids, ∀ c, lookupCh id chans = some c → c.closed = false

/-- The state invariant of the broker: the counter matches the size of the
active set, active identifiers are distinct, every active channel exists
and is open, a shut-down broker has no active subscriber, and every stored
key is below the fresh-identifier bound. -/
structure Inv (b : Broker T) : Prop where
  count_eq : b.subCount = (b.subs.length : Int)
  nodup : b.subs.Nodup
  subs_open : ∀ id ∈ b.subs, ∃ c, lookupCh id b.chans = some c ∧ c.closed = false
  done_empty : b.done = true → b.subs = []
  keys_lt : ∀ p ∈ b.chans, p.1 < b.nextId

/-- The system invariant of the fine-grained model: the broker invariant
holds and no double close has occurred. -/
def SysInv (s : Sys T) : Prop := Inv s.broker ∧ s.closeFault = false

/-- Replace only the maxEvents field. -/
def setMax (b : Broker T) (m : Int) : Broker T := { b with maxEvents := m }

/-- The racing interleaving: one subscriber; Publish snapshots the active
set under the read lock and releases it; the subscriber's watcher then
removes the channel from the active set and closes it; finally the pending
publish attempts its send on the snapshotted - now closed - channel. -/
def raceStart : Sys Nat :=
  { broker := (NewBrokerWithOptions Nat 64 1000).Subscribe.1
    pends := []
    sendFault := false
    closeFault := false }

def raceTrace : Sys Nat :=
  Sys.sendStep
    (Sys.liftAtomic (Sys.publishStart raceStart CreatedEvent 3)
      (fun b => b.watcherFire 0)) 0

/-- A broker with one subscriber whose buffer has been saturated by 64
publishes (the channel capacity is 64). -/
def satBroker : Broker Nat :=
  { subs := [0]
    chans := [(0, ⟨List.replicate 64 (Event.mk CreatedEvent 5), 64, false⟩)]
    done := false
    subCount := 1
    maxEvents := 1000
    nextId := 1 }

/-- The saturated channel of satBroker. -/
def satChan : Channel (Event Nat) :=
  ⟨List.replicate 64 (Event.mk CreatedEvent 5), 64, false⟩

/-- The broker obtained by shutting a fresh default broker down. -/
def deadBroker : Broker Nat :=
  { subs := []
    chans := []
    done := true
    subCount := 0
    maxEvents := 1000
    nextId := 0 }

/-! Lemmas about the channel store. -/

theorem lookupCh_updateCh_self {chans : List (Nat × Channel α)} {id : Nat}
    {c0 c : Channel α} (h : lookupCh id chans = some c0) :
    lookupCh id (updateCh chans id c) = some c := by
  induction chans with
  | nil => simp [lookupCh] at h
  | cons p ps ih =>
    by_cases hp : p.1 = id
    · simp [lookupCh, updateCh, hp]
    · simp [lookupCh, updateCh, hp] at h ⊢
      exact ih h

theorem lookupCh_updateCh_ne {chans : List (Nat × Channel α)} {id j : Nat}
    {c : Channel α} (h : j ≠ id) :
    lookupCh j (updateCh chans id c) = lookupCh j chans := by
  induction chans with
  | nil => simp [updateCh, lookupCh]
  | cons p ps ih =>
    obtain ⟨p1, p2⟩ := p
    by_cases hp : p1 = id
    · subst hp
      have hij : ¬(p1 = j) := fun hh => h hh.symm
      simp [lookupCh, updateCh, hij]
      exact ih
    · by_cases hj : p1 = j
      · subst hj
        simp [lookupCh, updateCh, hp]
      · simp [lookupCh, updateCh, hp, hj]
        exact ih

theorem lookupCh_updateCh_cases {chans : List (Nat × Channel α)} {id j : Nat}
    {c c2 : Channel α} (h : lookupCh j (updateCh chans id c) = some c2) :
    c2 = c ∨ lookupCh j chans = some c2 := by
  induction chans with
  | nil => simp [updateCh, lookupCh] at h
  | cons p ps ih =>
    obtain ⟨p1, p2⟩ := p
    by_cases hp : p1 = id
    · subst hp
      by_cases hj : p1 = j
      · subst hj
        simp [lookupCh, updateCh] at h
        exact Or.inl h.symm
      · simp [lookupCh, updateCh, hj] at h
        rcases ih h with h1 | h1
        · exact Or.inl h1
        · right
          simpa [lookupCh, hj] using h1
    · by_cases hj : p1 = j
      · subst hj
        simp [lookupCh, updateCh, hp] at h ⊢
        exact Or.inr h
      · simp [lookupCh, updateCh, hp, hj] at h ⊢
        exact ih h

theorem updateCh_keys {chans : List (Nat × Channel α)} {id : Nat} {c : Channel α} :
    (updateCh chans id c).map Prod.fst = chans.map Prod.fst := by
  induction chans with
  | nil => rfl
  | cons p ps ih =>
    obtain ⟨p1, p2⟩ := p
    by_cases hp : p1 = id
    · subst hp
      simp [updateCh] at ih ⊢
      exact ih
    · simp [updateCh, hp] at ih ⊢
      exact ih

theorem lookupCh_mem {chans : List (Nat × Channel α)} {j : Nat} {c : Channel α}
    (h : lookupCh j chans = some c) : (j, c) ∈ chans := by
  induction chans with
  | nil => simp [lookupCh] at h
  | cons p ps ih =>
    obtain ⟨p1, p2⟩ := p
    by_cases hp : p1 = j
    · simp [lookupCh, hp] at h
      subst hp
      subst h
      exact List.mem_cons_self _ _
    · simp [lookupCh, hp] at h
      exact List.mem_cons_of_mem _ (ih h)

theorem lookupCh_none_of_lt {chans : List (Nat × Channel α)} {n : Nat}
    (h : ∀ p ∈ chans, p.1 < n) : lookupCh n chans = none := by
  cases hl : lookupCh n chans with
  | none => rfl
  | some c => exact absurd (h _ (lookupCh_mem hl)) (lt_irrefl n)

theorem lookupCh_append_left {chans l : List (Nat × Channel α)} {j : Nat}
    {c : Channel α} (h : lookupCh j chans = some c) :
    lookupCh j (chans ++ l) = some c := by
  induction chans with
  | nil => simp [lookupCh] at h
  | cons p ps ih =>
    by_cases hp : p.1 = j
    · simpa [lookupCh, hp] using h
    · simp [lookupCh, hp] at h ⊢
      exact ih h

theorem lookupCh_append_right {chans l : List (Nat × Channel α)} {j : Nat}
    (h : lookupCh j chans = none) :
    lookupCh j (chans ++ l) = lookupCh j l := by
  induction chans with
  | nil => rfl
  | cons p ps ih =>
    by_cases hp : p.1 = j
    · simp [lookupCh, hp] at h
    · simp [lookupCh, hp] at h ⊢
      exact ih h

/-! Lemmas about the channel primitives. -/

theorem trySend_open {c : Channel α} {x : α} (h : c.closed = false) :
    ∃ c2, c.trySend x = some c2 ∧ c2.closed = false ∧ c2.cap = c.cap := by
  by_cases hlen : c.buf.length < c.cap
  · exact ⟨{ c with buf := c.buf ++ [x] }, by simp [Channel.trySend, h, hlen], h, rfl⟩
  · exact ⟨c, by simp [Channel.trySend, h, hlen], h, rfl⟩

theorem trySend_room {c : Channel α} {x : α} (h : c.closed = false)
    (hlen : c.buf.length < c.cap) :
    c.trySend x = some { c with buf := c.buf ++ [x] } := by
  simp [Channel.trySend, h, hlen]

theorem trySend_full {c : Channel α} {x : α} (h : c.closed = false)
    (hlen : ¬c.buf.length < c.cap) : c.trySend x = some c := by
  simp [Channel.trySend, h, hlen]

theorem close_open {c : Channel α} (h : c.closed = false) :
    c.close = some { c with closed := true } := by
  simp [Channel.close, h]

theorem recvList_buf {α : Type} (l : List α) (cp : Nat) (cl : Bool) :
    Channel.recvList ⟨l, cp, cl⟩ l.length = l := by
  induction l with
  | nil => rfl
  | cons x xs ih => simpa [Channel.recvList, Channel.recv] using ih

/-! Lemmas about sendAll and closeAll. -/

theorem openOn_of_cons {id : Nat} {ids : List Nat} {chans : List (Nat × Channel α)}
    (h : OpenOn (id :: ids) chans) : OpenOn ids chans :=
  fun j hj => h j (List.mem_cons_of_mem _ hj)

theorem openOn_updateCh {ids : List Nat} {chans : List (Nat × Channel α)}
    (id : Nat) {c : Channel α} (h : OpenOn ids chans) (hc : c.closed = false) :
    OpenOn ids (updateCh chans id c) := by
  intro j hj c2 hl
  rcases lookupCh_updateCh_cases hl with h1 | h1
  · rw [h1]; exact hc
  · exact h j hj c2 h1

theorem sendAll_some {ids : List Nat} {e : α} {chans : List (Nat × Channel α)}
    (h : OpenOn ids chans) : ∃ chans2, sendAll ids e chans = some chans2 := by
  induction ids generalizing chans with
  | nil => exact ⟨chans, rfl⟩
  | cons id rest ih =>
    cases hl : lookupCh id chans with
    | none =>
      obtain ⟨chans2, h2⟩ := ih (openOn_of_cons h)
      exact ⟨chans2, by simp [sendAll, hl, h2]⟩
    | some c =>
      have hc := h id (List.mem_cons_self _ _) c hl
      obtain ⟨c2, hsend, hc2, _⟩ := trySend_open (x := e) hc
      obtain ⟨chans2, h3⟩ := ih (openOn_updateCh id (openOn_of_cons h) hc2)
      exact ⟨chans2, by simp [sendAll, hl, hsend, h3]⟩

theorem sendAll_keys {ids : List Nat} {e : α} {chans chans2 : List (Nat × Channel α)}
    (h : sendAll ids e chans = some chans2) :
    chans2.map Prod.fst = chans.map Prod.fst := by
  induction ids generalizing chans with
  | nil =>
    simp [sendAll] at h
    rw [h]
  | cons id rest ih =>
    cases hl : lookupCh id chans with
    | none =>
      simp only [sendAll, hl] at h
      exact ih h
    | some c =>
      simp only [sendAll, hl] at h
      cases hs : c.trySend e with
      | none => rw [hs] at h; cases h
      | some c2 =>
        rw [hs] at h
        calc chans2.map Prod.fst
            = (updateCh chans id c2).map Prod.fst := ih h
          _ = chans.map Prod.fst := updateCh_keys

theorem sendAll_lookup_not_mem {ids : List Nat} {e : α}
    {chans chans2 : List (Nat × Channel α)} {j : Nat} (hj : j ∉ ids)
    (h : sendAll ids e chans = some chans2) :
    lookupCh j chans2 = lookupCh j chans := by
  induction ids generalizing chans with
  | nil =>
    simp [sendAll] at h
    rw [h]
  | cons id rest ih =>
    have hne : j ≠ id := fun hh => hj (hh ▸ List.mem_cons_self _ _)
    have hrest : j ∉ rest := fun hh => hj (List.mem_cons_of_mem _ hh)
    cases hl : lookupCh id chans with
    | none =>
      simp only [sendAll, hl] at h
      exact ih hrest h
    | some c =>
      simp only [sendAll, hl] at h
      cases hs : c.trySend e with
      | none => rw [hs] at h; cases h
      | some c2 =>
        rw [hs] at h
        rw [ih hrest h, lookupCh_updateCh_ne hne]

theorem sendAll_lookup_mem {ids : List Nat} {e : α}
    {chans chans2 : List (Nat × Channel α)} {j : Nat} {c : Channel α}
    (hnd : ids.Nodup) (hmem : j ∈ ids) (hl : lookupCh j chans = some c)
    (hc : c.closed = false) (h : sendAll ids e chans = some chans2) :
    lookupCh j chans2 = c.trySend e := by
  induction ids generalizing chans with
  | nil => cases hmem
  | cons id rest ih =>
    by_cases hj : j = id
    · subst hj
      simp only [sendAll, hl] at h
      obtain ⟨c2, hs, _, _⟩ := trySend_open (x := e) hc
      rw [hs] at h
      have hnotin : j ∉ rest := (List.nodup_cons.mp hnd).1
      rw [sendAll_lookup_not_mem hnotin h, lookupCh_updateCh_self hl, hs]
    · have hmem2 : j ∈ rest := (List.mem_cons.mp hmem).resolve_left hj
      have hnd2 := (List.nodup_cons.mp hnd).2
      cases hlid : lookupCh id chans with
      | none =>
        simp only [sendAll, hlid] at h
        exact ih hnd2 hmem2 hl h
      | some cid =>
        simp only [sendAll, hlid] at h
        cases hs : cid.trySend e with
        | none => rw [hs] at h; cases h
        | some cid2 =>
          rw [hs] at h
          have hl2 : lookupCh j (updateCh chans id cid2) = some c := by
            rw [lookupCh_updateCh_ne hj]; exact hl
          exact ih hnd2 hmem2 hl2 h

theorem closeAll_some {ids : List Nat} {chans : List (Nat × Channel α)}
    (hnd : ids.Nodup) (h : OpenOn ids chans) :
    ∃ chans2, closeAll ids chans = some chans2 := by
  induction ids generalizing chans with
  | nil => exact ⟨chans, rfl⟩
  | cons id rest ih =>
    obtain ⟨hnotin, hnd2⟩ := List.nodup_cons.mp hnd
    cases hl : lookupCh id chans with
    | none =>
      obtain ⟨chans2, h2⟩ := ih hnd2 (openOn_of_cons h)
      exact ⟨chans2, by simp [closeAll, hl, h2]⟩
    | some c =>
      have hc := h id (List.mem_cons_self _ _) c hl
      have h2 : OpenOn rest (updateCh chans id { c with closed := true }) := by
        intro j hj c2 hl2
        have hne : j ≠ id := fun hh => hnotin (hh ▸ hj)
        rw [lookupCh_updateCh_ne hne] at hl2
        exact h j (List.mem_cons_of_mem _ hj) c2 hl2
      obtain ⟨chans2, h3⟩ := ih hnd2 h2
      exact ⟨chans2, by simp [closeAll, hl, close_open hc, h3]⟩

theorem closeAll_keys {ids : List Nat} {chans chans2 : List (Nat × Channel α)}
    (h : closeAll ids chans = some chans2) :
    chans2.map Prod.fst = chans.map Prod.fst := by
  induction ids generalizing chans with
  | nil =>
    simp [closeAll] at h
    rw [h]
  | cons id rest ih =>
    cases hl : lookupCh id chans with
    | none =>
      simp only [closeAll, hl] at h
      exact ih h
    | some c =>
      simp only [closeAll, hl] at h
      cases hs : c.close with
      | none => rw [hs] at h; cases h
      | some c2 =>
        rw [hs] at h
        calc chans2.map Prod.fst
            = (updateCh chans id c2).map Prod.fst := ih h
          _ = chans.map Prod.fst := updateCh_keys

theorem closeAll_lookup_not_mem {ids : List Nat}
    {chans chans2 : List (Nat × Channel α)} {j : Nat} (hj : j ∉ ids)
    (h : closeAll ids chans = some chans2) :
    lookupCh j chans2 = lookupCh j chans := by
  induction ids generalizing chans with
  | nil =>
    simp [closeAll] at h
    rw [h]
  | cons id rest ih =>
    have hne : j ≠ id := fun hh => hj (hh ▸ List.mem_cons_self _ _)
    have hrest : j ∉ rest := fun hh => hj (List.mem_cons_of_mem _ hh)
    cases hl : lookupCh id chans with
    | none =>
      simp only [closeAll, hl] at h
      exact ih hrest h
    | some c =>
      simp only [closeAll, hl] at h
      cases hs : c.close with
      | none => rw [hs] at h; cases h
      | some c2 =>
        rw [hs] at h
        rw [ih hrest h, lookupCh_updateCh_ne hne]

theorem closeAll_lookup_mem {ids : List Nat}
    {chans chans2 : List (Nat × Channel α)} {j : Nat} {c : Channel α}
    (hnd : ids.Nodup) (hmem : j ∈ ids) (hl : lookupCh j chans = some c)
    (hc : c.closed = false) (h : closeAll ids chans = some chans2) :
    lookupCh j chans2 = some { c with closed := true } := by
  induction ids generalizing chans with
  | nil => cases hmem
  | cons id rest ih =>
    by_cases hj : j = id
    · subst hj
      simp only [closeAll, hl] at h
      rw [close_open hc] at h
      have hnotin : j ∉ rest := (List.nodup_cons.mp hnd).1
      rw [closeAll_lookup_not_mem hnotin h, lookupCh_updateCh_self hl]
    · have hmem2 : j ∈ rest := (List.mem_cons.mp hmem).resolve_left hj
      have hnd2 := (List.nodup_cons.mp hnd).2
      cases hlid : lookupCh id chans with
      | none =>
        simp only [closeAll, hlid] at h
        exact ih hnd2 hmem2 hl h
      | some cid =>
        simp only [closeAll, hlid] at h
        cases hs : cid.close with
        | none => rw [hs] at h; cases h
        | some cid2 =>
          rw [hs] at h
          have hl2 : lookupCh j (updateCh chans id cid2) = some c := by
            rw [lookupCh_updateCh_ne hj]; exact hl
          exact ih hnd2 hmem2 hl2 h

/-! The broker invariant and its preservation by every operation. -/

theorem Inv.openOn {b : Broker T} (h : Inv b) : OpenOn b.subs b.chans := by
  intro id hid c hl
  obtain ⟨c0, hl0, hc0⟩ := h.subs_open id hid
  rw [hl] at hl0
  injection hl0 with hh
  rw [← hh] at hc0
  exact hc0

theorem Inv.subs_lt {b : Broker T} (h : Inv b) :
    ∀ id ∈ b.subs, id < b.nextId := by
  intro id hid
  obtain ⟨c, hl, _⟩ := h.subs_open id hid
  exact h.keys_lt _ (lookupCh_mem hl)

theorem keys_lt_of_map_eq {chans chans2 : List (Nat × Channel α)} {n : Nat}
    (hmap : chans2.map Prod.fst = chans.map Prod.fst)
    (h : ∀ p ∈ chans, p.1 < n) : ∀ p ∈ chans2, p.1 < n := by
  intro p hp
  have hp1 : p.1 ∈ chans2.map Prod.fst := List.mem_map_of_mem _ hp
  rw [hmap] at hp1
  obtain ⟨q, hq, hq1⟩ := List.mem_map.mp hp1
  rw [← hq1]
  exact h q hq

theorem Inv_init (T : Type) (cbs me : Int) : Inv (NewBrokerWithOptions T cbs me) := by
  constructor <;> simp [NewBrokerWithOptions]

theorem Inv_subscribe {b : Broker T} (h : Inv b) : Inv b.Subscribe.1 := by
  cases hd : b.done with
  | true =>
    have hsubs := h.done_empty hd
    constructor
    · simpa [Broker.Subscribe, hd] using h.count_eq
    · simpa [Broker.Subscribe, hd] using h.nodup
    · intro id hid
      simp [Broker.Subscribe, hd] at hid ⊢
      obtain ⟨c, hl, hc⟩ := h.subs_open id hid
      exact ⟨c, lookupCh_append_left hl, hc⟩
    · intro _
      simpa [Broker.Subscribe, hd] using hsubs
    · intro p hp
      simp [Broker.Subscribe, hd] at hp ⊢
      rcases hp with hp | hp
      · exact Nat.lt_succ_of_lt (h.keys_lt p hp)
      · rw [hp]
        exact Nat.lt_succ_self _
  | false =>
    constructor
    · simp [Broker.Subscribe, hd, h.count_eq]
    · simp [Broker.Subscribe, hd]
      refine ⟨fun hmem => ?_, h.nodup⟩
      exact absurd (h.subs_lt _ hmem) (lt_irrefl _)
    · intro id hid
      simp [Broker.Subscribe, hd] at hid ⊢
      rcases hid with hid | hid
      · subst hid
        refine ⟨⟨[], bufferSize, false⟩, ?_, rfl⟩
        rw [lookupCh_append_right (lookupCh_none_of_lt h.keys_lt)]
        simp [lookupCh]
      · obtain ⟨c, hl, hc⟩ := h.subs_open id hid
        exact ⟨c, lookupCh_append_left hl, hc⟩
    · intro hdt
      simp [Broker.Subscribe, hd] at hdt
    · intro p hp
      simp [Broker.Subscribe, hd] at hp ⊢
      rcases hp with hp | hp
      · exact Nat.lt_succ_of_lt (h.keys_lt p hp)
      · rw [hp]
        exact Nat.lt_succ_self _

/-! Characterizations of the operations. -/

theorem Publish_done {b : Broker T} (hd : b.done = true) (t : EventType) (v : T) :
    b.Publish t v = some b := by
  simp [Broker.Publish, hd]

theorem Publish_run {b : Broker T} {t : EventType} {v : T}
    {chans2 : List (Nat × Channel (Event T))} (hd : b.done = false)
    (hs : sendAll b.subs (Event.mk t v) b.chans = some chans2) :
    b.Publish t v = some { b with chans := chans2 } := by
  simp [Broker.Publish, hd, hs]

theorem Publish_inversion {b b2 : Broker T} {t : EventType} {v : T}
    (hd : b.done = false) (h : b.Publish t v = some b2) :
    ∃ chans2, sendAll b.subs (Event.mk t v) b.chans = some chans2 ∧
      b2 = { b with chans := chans2 } := by
  cases hs : sendAll b.subs (Event.mk t v) b.chans with
  | none =>
    have hn : b.Publish t v = none := by simp [Broker.Publish, hd, hs]
    rw [hn] at h
    cases h
  | some chans2 =>
    have h2 := Publish_run hd hs
    rw [h2] at h
    injection h with hh
    exact ⟨chans2, rfl, hh.symm⟩

theorem Shutdown_done {b : Broker T} (hd : b.done = true) : b.Shutdown = some b := by
  simp [Broker.Shutdown, hd]

theorem Shutdown_run {b : Broker T} {chans2 : List (Nat × Channel (Event T))}
    (hd : b.done = false) (hs : closeAll b.subs b.chans = some chans2) :
    b.Shutdown = some { b with done := true, subs := [], chans := chans2, subCount := 0 } := by
  simp [Broker.Shutdown, hd, hs]

theorem Shutdown_inversion {b b2 : Broker T} (hd : b.done = false)
    (h : b.Shutdown = some b2) :
    ∃ chans2, closeAll b.subs b.chans = some chans2 ∧
      b2 = { b with done := true, subs := [], chans := chans2, subCount := 0 } := by
  cases hs : closeAll b.subs b.chans with
  | none =>
    have hn : b.Shutdown = none := by simp [Broker.Shutdown, hd, hs]
    rw [hn] at h
    cases h
  | some chans2 =>
    have h2 := Shutdown_run hd hs
    rw [h2] at h
    injection h with hh
    exact ⟨chans2, rfl, hh.symm⟩

theorem watcherFire_done {b : Broker T} {id : Nat} (hd : b.done = true) :
    b.watcherFire id = some b := by
  simp [Broker.watcherFire, hd]

theorem watcherFire_not_mem {b : Broker T} {id : Nat} (hd : b.done = false)
    (hmem : id ∉ b.subs) : b.watcherFire id = some b := by
  simp [Broker.watcherFire, hd, hmem]

theorem watcherFire_mem {b : Broker T} {j : Nat} {c : Channel (Event T)}
    (hd : b.done = false) (hmem : j ∈ b.subs)
    (hl : lookupCh j b.chans = some c) (hc : c.closed = false) :
    b.watcherFire j = some
      { b with
          subs := b.subs.erase j
          chans := updateCh b.chans j { c with closed := true }
          subCount := b.subCount - 1 } := by
  simp [Broker.watcherFire, hd, hmem, hl, close_open hc]

/-! Preservation of the invariant. -/

theorem Inv_publish {b b2 : Broker T} {t : EventType} {v : T} (h : Inv b)
    (hp : b.Publish t v = some b2) : Inv b2 := by
  cases hd : b.done with
  | true =>
    rw [Publish_done hd] at hp
    injection hp with hh
    rw [← hh]
    exact h
  | false =>
    obtain ⟨chans2, hs, hb2⟩ := Publish_inversion hd hp
    subst hb2
    constructor
    · exact h.count_eq
    · exact h.nodup
    · intro id hid
      obtain ⟨c, hl, hc⟩ := h.subs_open id hid
      obtain ⟨c2, hts, hc2, _⟩ := trySend_open (x := Event.mk t v) hc
      refine ⟨c2, ?_, hc2⟩
      rw [sendAll_lookup_mem h.nodup hid hl hc hs, hts]
    · intro hdt
      exact h.done_empty hdt
    · exact keys_lt_of_map_eq (sendAll_keys hs) h.keys_lt

theorem Inv_shutdown {b b2 : Broker T} (h : Inv b)
    (hp : b.Shutdown = some b2) : Inv b2 := by
  cases hd : b.done with
  | true =>
    rw [Shutdown_done hd] at hp
    injection hp with hh
    rw [← hh]
    exact h
  | false =>
    obtain ⟨chans2, hs, hb2⟩ := Shutdown_inversion hd hp
    subst hb2
    constructor
    · simp
    · simp
    · intro id hid
      simp at hid
    · intro _
      rfl
    · exact keys_lt_of_map_eq (closeAll_keys hs) h.keys_lt

theorem Inv_watcher {b b2 : Broker T} {id : Nat} (h : Inv b)
    (hp : b.watcherFire id = some b2) : Inv b2 := by
  cases hd : b.done with
  | true =>
    rw [watcherFire_done hd] at hp
    injection hp with hh
    rw [← hh]
    exact h
  | false =>
    by_cases hmem : id ∈ b.subs
    · obtain ⟨c, hl, hc⟩ := h.subs_open id hmem
      rw [watcherFire_mem hd hmem hl hc] at hp
      injection hp with hh
      rw [← hh]
      have hlen : 0 < b.subs.length := List.length_pos_of_mem hmem
      constructor
      · have herase : (b.subs.erase id).length = b.subs.length - 1 :=
          List.length_erase_of_mem hmem
        have hcnt := h.count_eq
        simp only [herase]
        omega
      · exact h.nodup.erase id
      · intro j hj
        have hj2 : j ≠ id ∧ j ∈ b.subs := (h.nodup.mem_erase_iff).mp hj
        obtain ⟨cj, hlj, hcj⟩ := h.subs_open j hj2.2
        refine ⟨cj, ?_, hcj⟩
        rw [lookupCh_updateCh_ne hj2.1]
        exact hlj
      · intro hdt
        simp at hdt
        rw [hdt] at hd
        cases hd
      · exact keys_lt_of_map_eq updateCh_keys h.keys_lt
    · rw [watcherFire_not_mem hd hmem] at hp
      injection hp with hh
      rw [← hh]
      exact h

/-! Totality of the operations on invariant states: the fault branches are
not taken. -/

theorem Publish_total {b : Broker T} (h : Inv b) (t : EventType) (v : T) :
    ∃ b2, b.Publish t v = some b2 := by
  cases hd : b.done with
  | true => exact ⟨b, Publish_done hd t v⟩
  | false =>
    obtain ⟨chans2, hs⟩ := sendAll_some (e := Event.mk t v) h.openOn
    exact ⟨_, Publish_run hd hs⟩

theorem Shutdown_total {b : Broker T} (h : Inv b) :
    ∃ b2, b.Shutdown = some b2 := by
  cases hd : b.done with
  | true => exact ⟨b, Shutdown_done hd⟩
  | false =>
    obtain ⟨chans2, hs⟩ := closeAll_some h.nodup h.openOn
    exact ⟨_, Shutdown_run hd hs⟩

theorem watcherFire_total {b : Broker T} (h : Inv b) (id : Nat) :
    ∃ b2, b.watcherFire id = some b2 := by
  cases hd : b.done with
  | true => exact ⟨b, watcherFire_done hd⟩
  | false =>
    by_cases hmem : id ∈ b.subs
    · obtain ⟨c, hl, hc⟩ := h.subs_open id hmem
      exact ⟨_, watcherFire_mem hd hmem hl hc⟩
    · exact ⟨b, watcherFire_not_mem hd hmem⟩

theorem reachable_inv {b : Broker T} (h : Reachable T b) : Inv b := by
  induction h with
  | init cbs me => exact Inv_init T cbs me
  | subscribe _ ih => exact Inv_subscribe ih
  | publish _ hp ih => exact Inv_publish ih hp
  | shutdown _ hp ih => exact Inv_shutdown ih hp
  | watcher _ hp ih => exact Inv_watcher ih hp

/-- Publish changes no broker field except the channel store. -/
theorem Publish_fields {b b2 : Broker T} {t : EventType} {v : T}
    (h : b.Publish t v = some b2) :
    b2.subs = b.subs ∧ b2.done = b.done ∧ b2.subCount = b.subCount ∧
      b2.nextId = b.nextId ∧ b2.maxEvents = b.maxEvents := by
  cases hd : b.done with
  | true =>
    rw [Publish_done hd] at h
    injection h with hh
    rw [← hh]
    exact ⟨rfl, hd, rfl, rfl, rfl⟩
  | false =>
    obtain ⟨chans2, _, hb2⟩ := Publish_inversion hd h
    subst hb2
    exact ⟨rfl, hd, rfl, rfl, rfl⟩

/-- Updating the store with an open channel preserves the invariant. -/
theorem Inv_updateCh_open {b : Broker T} {id : Nat} {c2 : Channel (Event T)}
    (h : Inv b) (hc2 : c2.closed = false) :
    Inv { b with chans := updateCh b.chans id c2 } := by
  constructor
  · exact h.count_eq
  · exact h.nodup
  · intro j hj
    obtain ⟨cj, hlj, hcj⟩ := h.subs_open j hj
    by_cases hji : j = id
    · subst hji
      exact ⟨c2, lookupCh_updateCh_self hlj, hc2⟩
    · refine ⟨cj, ?_, hcj⟩
      rw [lookupCh_updateCh_ne hji]
      exact hlj
  · exact h.done_empty
  · exact keys_lt_of_map_eq updateCh_keys h.keys_lt

theorem reachable_publishN {T : Type} {b b2 : Broker T} {t : EventType}
    {v : T} {n : Nat} (hr : Reachable T b) (h : publishN b t v n = some b2) :
    Reachable T b2 := by
  induction n generalizing b with
  | zero =>
    simp [publishN] at h
    rw [← h]
    exact hr
  | succ n ih =>
    simp only [publishN] at h
    cases hp : b.Publish t v with
    | none => rw [hp] at h; cases h
    | some b3 =>
      rw [hp] at h
      exact ih (Reachable.publish hr hp) h

/-- Publishing any number of times against a saturated subscriber leaves
its channel untouched and never faults. -/
theorem publishN_full_unchanged {T : Type} {id : Nat} {c : Channel (Event T)}
    (t : EventType) (v : T) (hfull : ¬c.buf.length < c.cap) :
    ∀ (n : Nat) (b : Broker T), Inv b → b.done = false → id ∈ b.subs →
      lookupCh id b.chans = some c →
      ∃ bn, publishN b t v n = some bn ∧ lookupCh id bn.chans = some c := by
  intro n
  induction n with
  | zero => exact fun b _ _ _ hl => ⟨b, rfl, hl⟩
  | succ n ih =>
    intro b hInv hd hid hl
    have hc : c.closed = false := hInv.openOn id hid c hl
    obtain ⟨chans2, hs⟩ := sendAll_some (e := Event.mk t v) hInv.openOn
    have hp := Publish_run hd hs
    have hInv2 : Inv { b with chans := chans2 } := Inv_publish hInv hp
    have hl2 : lookupCh id chans2 = some c := by
      rw [sendAll_lookup_mem hInv.nodup hid hl hc hs, trySend_full hc hfull]
    obtain ⟨bn, h1, h2⟩ := ih { b with chans := chans2 } hInv2 hd hid hl2
    refine ⟨bn, ?_, h2⟩
    simp only [publishN, hp]
    exact h1

/-- Running a sequence of publishes enqueues, on each subscriber still
present, exactly the not-dropped events in publish order. -/
theorem publishSeq_fifo {T : Type} (ps : List (EventType × T)) :
    ∀ (b : Broker T) (c : Channel (Event T)) (id : Nat), Inv b →
      b.done = false → id ∈ b.subs → lookupCh id b.chans = some c →
      ∃ b2 l, publishSeq b ps = some b2 ∧
        List.Sublist l (ps.map fun p => Event.mk p.1 p.2) ∧
        lookupCh id b2.chans = some { c with buf := c.buf ++ l } := by
  induction ps with
  | nil =>
    intro b c id hInv hd hid hl
    refine ⟨b, [], rfl, List.nil_sublist _, ?_⟩
    rw [List.append_nil]
    exact hl
  | cons p rest ih =>
    intro b c id hInv hd hid hl
    have hc : c.closed = false := hInv.openOn id hid c hl
    obtain ⟨chans2, hs⟩ := sendAll_some (e := Event.mk p.1 p.2) hInv.openOn
    have hp := Publish_run hd hs
    have hInv2 : Inv { b with chans := chans2 } := Inv_publish hInv hp
    have hl2 : lookupCh id chans2 = c.trySend (Event.mk p.1 p.2) :=
      sendAll_lookup_mem hInv.nodup hid hl hc hs
    by_cases hroom : c.buf.length < c.cap
    · rw [trySend_room hc hroom] at hl2
      obtain ⟨b2, l, h1, h2, h3⟩ :=
        ih { b with chans := chans2 } { c with buf := c.buf ++ [Event.mk p.1 p.2] }
          id hInv2 hd hid hl2
      refine ⟨b2, Event.mk p.1 p.2 :: l, ?_, ?_, ?_⟩
      · simp only [publishSeq, hp]
        exact h1
      · simpa using List.Sublist.cons₂ (Event.mk p.1 p.2) h2
      · simpa [List.append_assoc] using h3
    · rw [trySend_full hc hroom] at hl2
      obtain ⟨b2, l, h1, h2, h3⟩ := ih { b with chans := chans2 } c id hInv2 hd hid hl2
      refine ⟨b2, l, ?_, ?_, h3⟩
      · simp only [publishSeq, hp]
        exact h1
      · exact h2.cons _

/-! The maxEvents field never influences any operation. -/

theorem Subscribe_setMax (b : Broker T) (m : Int) :
    (setMax b m).Subscribe.1 = setMax b.Subscribe.1 m ∧
      (setMax b m).Subscribe.2 = b.Subscribe.2 := by
  cases hd : b.done <;> simp [Broker.Subscribe, setMax, hd]

theorem Publish_setMax (b : Broker T) (m : Int) (t : EventType) (v : T) :
    (setMax b m).Publish t v = (b.Publish t v).map (setMax · m) := by
  cases hd : b.done with
  | true => simp [Broker.Publish, setMax, hd]
  | false =>
    cases hs : sendAll b.subs (Event.mk t v) b.chans <;>
      simp [Broker.Publish, setMax, hd, hs]

theorem Shutdown_setMax (b : Broker T) (m : Int) :
    (setMax b m).Shutdown = b.Shutdown.map (setMax · m) := by
  cases hd : b.done with
  | true => simp [Broker.Shutdown, setMax, hd]
  | false =>
    cases hs : closeAll b.subs b.chans <;>
      simp [Broker.Shutdown, setMax, hd, hs]

theorem watcherFire_setMax (b : Broker T) (m : Int) (id : Nat) :
    (setMax b m).watcherFire id = (b.watcherFire id).map (setMax · m) := by
  cases hd : b.done with
  | true => simp [Broker.watcherFire, setMax, hd]
  | false =>
    by_cases hmem : id ∈ b.subs
    · cases hl : lookupCh id b.chans with
      | none => simp [Broker.watcherFire, setMax, hd, hmem, hl]
      | some c =>
        cases hcc : c.close <;>
          simp [Broker.watcherFire, setMax, hd, hmem, hl, hcc]
    · simp [Broker.watcherFire, setMax, hd, hmem]

theorem runOps_setMax {T : Type} (ops : List (Op T)) :
    ∀ (b : Broker T) (m : Int),
      runOps (setMax b m) ops = (runOps b ops).map (setMax · m) := by
  induction ops with
  | nil => intro b m; rfl
  | cons op rest ih =>
    intro b m
    cases op with
    | subscribe =>
      simp only [runOps, (Subscribe_setMax b m).1]
      exact ih _ m
    | publish t v =>
      simp only [runOps, Publish_setMax b m t v]
      cases hp : b.Publish t v with
      | none => rfl
      | some b2 => simpa using ih b2 m
    | shutdown =>
      simp only [runOps, Shutdown_setMax b m]
      cases hp : b.Shutdown with
      | none => rfl
      | some b2 => simpa using ih b2 m
    | watcher id =>
      simp only [runOps, watcherFire_setMax b m id]
      cases hp : b.watcherFire id with
      | none => rfl
      | some b2 => simpa using ih b2 m

/-! The fine-grained model never takes a double-close branch. -/

theorem liftAtomic_some {s : Sys T} {f : Broker T → Option (Broker T)}
    {b2 : Broker T} (hf : f s.broker = some b2) :
    s.liftAtomic f = { s with broker := b2 } := by
  unfold Sys.liftAtomic
  rw [hf]

theorem trySend_closed_eq {c c2 : Channel α} {x : α}
    (h : c.trySend x = some c2) : c2.closed = c.closed := by
  unfold Channel.trySend at h
  by_cases hcl : c.closed
  · rw [if_pos hcl] at h
    cases h
  · rw [if_neg hcl] at h
    by_cases hlen : c.buf.length < c.cap
    · rw [if_pos hlen] at h
      injection h with hh
      rw [← hh]
    · rw [if_neg hlen] at h
      injection h with hh
      rw [← hh]

theorem sysReachable_inv {T : Type} {s : Sys T} (h : SysReachable T s) :
    SysInv s := by
  induction h with
  | init cbs me => exact ⟨Inv_init T cbs me, rfl⟩
  | subscribe _ ih => exact ⟨Inv_subscribe ih.1, ih.2⟩
  | shutdown _ ih =>
    obtain ⟨b2, hf⟩ := Shutdown_total ih.1
    rw [liftAtomic_some (f := Broker.Shutdown) hf]
    exact ⟨Inv_shutdown ih.1 hf, ih.2⟩
  | watcher id _ ih =>
    obtain ⟨b2, hf⟩ := watcherFire_total ih.1 id
    rw [liftAtomic_some (f := fun b => b.watcherFire id) hf]
    exact ⟨Inv_watcher ih.1 hf, ih.2⟩
  | publishStart t v _ ih =>
    unfold Sys.publishStart
    split
    · exact ih
    · exact ⟨ih.1, ih.2⟩
  | sendStep i _ ih =>
    unfold Sys.sendStep
    split
    · exact ih
    · split
      · exact ⟨ih.1, ih.2⟩
      · split
        · exact ⟨ih.1, ih.2⟩
        · split
          · exact ⟨ih.1, ih.2⟩
          · split
            · exact ⟨ih.1, ih.2⟩
            · rename_i hcl _ c2 hts
              have hcf : c2.closed = false := by
                rw [trySend_closed_eq hts]
                exact Bool.not_eq_true _ ▸ Bool.of_not_eq_true hcl
              exact ⟨Inv_updateCh_open ih.1 hcf, ih.2⟩

theorem obs_fields {b1 b2 : Broker T} (h : b1.obs = b2.obs) :
    b1.subs = b2.subs ∧ b1.chans = b2.chans ∧ b1.done = b2.done ∧
      b1.subCount = b2.subCount ∧ b1.nextId = b2.nextId := by
  unfold Broker.obs at h
  injection h with h1 h2 h3 h4 h5
  exact ⟨h1, h2, h3, h4, h5⟩

/-! The claims. -/

/-- C1: on a broker that is not shut down, Publish succeeds, and every
subscriber channel in the active set at the time of the publish whose
buffer has room receives an event whose type equals t and whose payload
equals v, independently for each active subscriber (fan-out); draining the
channel then yields the backlog followed by exactly that event. -/
theorem C1_publish_fanout_delivery {T : Type} {b : Broker T}
    (hr : Reachable T b) (hd : b.done = false) (t : EventType) (v : T) :
    ∃ b2, b.Publish t v = some b2 ∧
      ∀ id ∈ b.subs, ∀ c, lookupCh id b.chans = some c →
        c.buf.length < c.cap →
        lookupCh id b2.chans = some { c with buf := c.buf ++ [Event.mk t v] } ∧
        Channel.recvList { c with buf := c.buf ++ [Event.mk t v] }
          (c.buf ++ [Event.mk t v]).length = c.buf ++ [Event.mk t v] := by
  have hInv := reachable_inv hr
  obtain ⟨b2, hp⟩ := Publish_total hInv t v
  refine ⟨b2, hp, fun id hid c hl hroom => ?_⟩
  obtain ⟨chans2, hs, hb2⟩ := Publish_inversion hd hp
  have hc : c.closed = false := hInv.openOn id hid c hl
  subst hb2
  constructor
  · show lookupCh id chans2 = _
    rw [sendAll_lookup_mem hInv.nodup hid hl hc hs, trySend_room hc hroom]
  · exact recvList_buf (c.buf ++ [Event.mk t v]) c.cap c.closed

theorem C1_witness :
    ((NewBroker Nat).Subscribe.1.done = false) ∧
    ∃ b2, (NewBroker Nat).Subscribe.1.Publish CreatedEvent 7 = some b2 ∧
      ∀ id ∈ (NewBroker Nat).Subscribe.1.subs, ∀ c,
        lookupCh id (NewBroker Nat).Subscribe.1.chans = some c →
        c.buf.length < c.cap →
        lookupCh id b2.chans =
          some { c with buf := c.buf ++ [Event.mk CreatedEvent 7] } ∧
        Channel.recvList { c with buf := c.buf ++ [Event.mk CreatedEvent 7] }
          (c.buf ++ [Event.mk CreatedEvent 7]).length =
          c.buf ++ [Event.mk CreatedEvent 7] :=
  ⟨rfl, C1_publish_fanout_delivery
    (Reachable.subscribe (Reachable.init (Int.ofNat bufferSize) 1000))
    rfl CreatedEvent 7⟩

/-- C2: when an active subscriber channel is full, Publish leaves exactly
that channel unchanged, still attempts every other snapshotted subscriber
(those with room receive the event), returns normally, and arbitrarily
many further publishes keep returning normally with the saturated channel
unchanged. -/
theorem C2_publish_drop_on_full {T : Type} {b : Broker T} {id : Nat}
    {c : Channel (Event T)} (hr : Reachable T b) (hd : b.done = false)
    (hid : id ∈ b.subs) (hl : lookupCh id b.chans = some c)
    (hfull : ¬c.buf.length < c.cap) (t : EventType) (v : T) :
    (∃ b2, b.Publish t v = some b2 ∧ lookupCh id b2.chans = some c ∧
      ∀ j ∈ b.subs, j ≠ id → ∀ cj, lookupCh j b.chans = some cj →
        cj.buf.length < cj.cap →
        lookupCh j b2.chans = some { cj with buf := cj.buf ++ [Event.mk t v] }) ∧
    ∀ n, ∃ bn, publishN b t v n = some bn ∧ lookupCh id bn.chans = some c := by
  have hInv := reachable_inv hr
  constructor
  · obtain ⟨chans2, hs⟩ := sendAll_some (e := Event.mk t v) hInv.openOn
    have hp := Publish_run hd hs
    have hc : c.closed = false := hInv.openOn id hid c hl
    refine ⟨_, hp, ?_, ?_⟩
    · show lookupCh id chans2 = some c
      rw [sendAll_lookup_mem hInv.nodup hid hl hc hs, trySend_full hc hfull]
    · intro j hj hne cj hlj hroomj
      have hcj : cj.closed = false := hInv.openOn j hj cj hlj
      show lookupCh j chans2 = _
      rw [sendAll_lookup_mem hInv.nodup hj hlj hcj hs, trySend_room hcj hroomj]
  · intro n
    exact publishN_full_unchanged t v hfull n b hInv hd hid hl

theorem C2_witness :
    satBroker.done = false ∧ 0 ∈ satBroker.subs ∧
    lookupCh 0 satBroker.chans = some satChan ∧
    ¬satChan.buf.length < satChan.cap ∧
    ((∃ b2, satBroker.Publish CreatedEvent 9 = some b2 ∧
        lookupCh 0 b2.chans = some satChan ∧
        ∀ j ∈ satBroker.subs, j ≠ 0 → ∀ cj, lookupCh j satBroker.chans = some cj →
          cj.buf.length < cj.cap →
          lookupCh j b2.chans =
            some { cj with buf := cj.buf ++ [Event.mk CreatedEvent 9] }) ∧
      ∀ n, ∃ bn, publishN satBroker CreatedEvent 9 n = some bn ∧
        lookupCh 0 bn.chans = some satChan) :=
  ⟨rfl, by decide, by decide, by decide,
    C2_publish_drop_on_full
      (reachable_publishN (t := CreatedEvent) (v := 5) (n := 64)
        (Reachable.subscribe (Reachable.init (Int.ofNat bufferSize) 1000))
        (by decide))
      rfl (by decide) (by decide) (by decide) CreatedEvent 9⟩

/-- C3 (a bug in the code): NewBrokerWithOptions documents that the given
channel buffer size configures the broker, yet the constructor discards it
and Subscribe allocates every channel with the package constant: with
bufferCapacity 8 the subscriber channel has capacity 64, not 8. -/
theorem C3_configured_capacity_ignored :
    ∃ c, lookupCh (NewBrokerWithOptions Nat 8 1000).Subscribe.2
        (NewBrokerWithOptions Nat 8 1000).Subscribe.1.chans = some c ∧
      c.cap = 64 ∧ c.cap ≠ 8 :=
  ⟨⟨[], bufferSize, false⟩, by decide, by decide, by decide⟩

/-- C5: Shutdown is idempotent: on every reachable broker the first call
succeeds, a second call is a no-op returning the same state, and the
resulting broker is shut down with an empty active set and counter zero. -/
theorem C5_shutdown_idempotent {T : Type} {b : Broker T} (hr : Reachable T b) :
    ∃ b2, b.Shutdown = some b2 ∧ b2.Shutdown = some b2 ∧
      b2.done = true ∧ b2.subs = [] ∧ b2.subCount = 0 := by
  have hInv := reachable_inv hr
  cases hd : b.done with
  | true =>
    have hsubs := hInv.done_empty hd
    refine ⟨b, Shutdown_done hd, Shutdown_done hd, hd, hsubs, ?_⟩
    rw [hInv.count_eq, hsubs]
    rfl
  | false =>
    obtain ⟨b2, hs⟩ := Shutdown_total hInv
    obtain ⟨chans2, _, hb2⟩ := Shutdown_inversion hd hs
    subst hb2
    exact ⟨_, hs, Shutdown_done rfl, rfl, rfl, rfl⟩

theorem C5_witness :
    ∃ b2, (NewBroker Nat).Subscribe.1.Shutdown = some b2 ∧
      b2.Shutdown = some b2 ∧ b2.done = true ∧ b2.subs = [] ∧ b2.subCount = 0 :=
  C5_shutdown_idempotent
    (Reachable.subscribe (Reachable.init (Int.ofNat bufferSize) 1000))

/-- C6: on a shut-down broker Publish returns the state unchanged with
nothing delivered, and Subscribe leaves the active set, the counter and the
shutdown flag unchanged while returning a channel that is already closed
with an empty buffer, so a receive reports end-of-stream at once. -/
theorem C6_after_shutdown_noop {T : Type} {b : Broker T}
    (hr : Reachable T b) (hd : b.done = true) :
    (∀ t v, b.Publish t v = some b) ∧
    b.Subscribe.1.subs = b.subs ∧
    b.Subscribe.1.subCount = b.subCount ∧
    b.Subscribe.1.done = true ∧
    ∃ c, lookupCh b.Subscribe.2 b.Subscribe.1.chans = some c ∧
      c.buf = [] ∧ c.recv = RecvResult.closed := by
  have hInv := reachable_inv hr
  refine ⟨fun t v => Publish_done hd t v, ?_, ?_, ?_, ?_⟩
  · simp [Broker.Subscribe, hd]
  · simp [Broker.Subscribe, hd]
  · simp [Broker.Subscribe, hd]
  · refine ⟨⟨[], 0, true⟩, ?_, rfl, rfl⟩
    simp only [Broker.Subscribe, hd, if_true]
    rw [lookupCh_append_right (lookupCh_none_of_lt hInv.keys_lt)]
    simp [lookupCh]

theorem C6_witness :
    deadBroker.done = true ∧
    (∀ t v, deadBroker.Publish t v = some deadBroker) ∧
    deadBroker.Subscribe.1.subs = deadBroker.subs ∧
    deadBroker.Subscribe.1.subCount = deadBroker.subCount ∧
    deadBroker.Subscribe.1.done = true ∧
    ∃ c, lookupCh deadBroker.Subscribe.2 deadBroker.Subscribe.1.chans = some c ∧
      c.buf = [] ∧ c.recv = RecvResult.closed := by
  refine ⟨rfl, ?_⟩
  exact C6_after_shutdown_noop
    (Reachable.shutdown (Reachable.init (Int.ofNat bufferSize) 1000)
      (by decide))
    rfl

/-- C7: subscribing on a running broker and then running the watcher (the
scope was cancelled) brings the subscriber count back to its pre-subscribe
value, removes the channel from the active set, closes it so that a
receive reports end-of-stream, and no later Publish touches the removed
channel. -/
theorem C7_auto_unsubscribe {T : Type} {b : Broker T}
    (hr : Reachable T b) (hd : b.done = false) :
    ∃ b2, b.Subscribe.1.watcherFire b.Subscribe.2 = some b2 ∧
      b2.GetSubscriberCount = b.GetSubscriberCount ∧
      b.Subscribe.2 ∉ b2.subs ∧
      (∃ c, lookupCh b.Subscribe.2 b2.chans = some c ∧
        c.recv = RecvResult.closed) ∧
      ∀ t v b3, b2.Publish t v = some b3 →
        lookupCh b.Subscribe.2 b3.chans = lookupCh b.Subscribe.2 b2.chans := by
  have hInv := reachable_inv hr
  have hnot : b.nextId ∉ b.subs := fun hmem =>
    absurd (hInv.subs_lt _ hmem) (lt_irrefl _)
  have hsub1 : b.Subscribe.1 = { b with
      chans := b.chans ++ [(b.nextId, ⟨[], bufferSize, false⟩)]
      subs := b.nextId :: b.subs
      subCount := b.subCount + 1
      nextId := b.nextId + 1 } := by
    simp [Broker.Subscribe, hd]
  have hsub2 : b.Subscribe.2 = b.nextId := by
    simp [Broker.Subscribe, hd]
  rw [hsub1, hsub2]
  have hl1 : lookupCh b.nextId
      (b.chans ++ [(b.nextId, (⟨[], bufferSize, false⟩ : Channel (Event T)))]) =
      some ⟨[], bufferSize, false⟩ := by
    rw [lookupCh_append_right (lookupCh_none_of_lt hInv.keys_lt)]
    simp [lookupCh]
  refine ⟨{ b with
      chans := updateCh (b.chans ++ [(b.nextId, ⟨[], bufferSize, false⟩)])
        b.nextId ⟨[], bufferSize, true⟩
      nextId := b.nextId + 1 }, ?_, rfl, hnot, ?_, ?_⟩
  · rw [watcherFire_mem
      (b := { b with
        chans := b.chans ++ [(b.nextId, ⟨[], bufferSize, false⟩)]
        subs := b.nextId :: b.subs
        subCount := b.subCount + 1
        nextId := b.nextId + 1 })
      (j := b.nextId) (c := ⟨[], bufferSize, false⟩)
      hd (List.mem_cons_self _ _) hl1 rfl]
    simp
  · exact ⟨⟨[], bufferSize, true⟩, lookupCh_updateCh_self hl1, rfl⟩
  · intro t v b3 hp3
    obtain ⟨chans3, hs3, hb3⟩ := Publish_inversion
      (b := { b with
        chans := updateCh (b.chans ++ [(b.nextId, ⟨[], bufferSize, false⟩)])
          b.nextId ⟨[], bufferSize, true⟩
        nextId := b.nextId + 1 })
      hd hp3
    subst hb3
    exact sendAll_lookup_not_mem hnot hs3

theorem C7_witness :
    ((NewBroker Nat).done = false) ∧
    ∃ b2, (NewBroker Nat).Subscribe.1.watcherFire (NewBroker Nat).Subscribe.2 =
        some b2 ∧
      b2.GetSubscriberCount = (NewBroker Nat).GetSubscriberCount ∧
      (NewBroker Nat).Subscribe.2 ∉ b2.subs ∧
      (∃ c, lookupCh (NewBroker Nat).Subscribe.2 b2.chans = some c ∧
        c.recv = RecvResult.closed) ∧
      ∀ t v b3, b2.Publish t v = some b3 →
        lookupCh (NewBroker Nat).Subscribe.2 b3.chans =
          lookupCh (NewBroker Nat).Subscribe.2 b2.chans :=
  ⟨rfl, C7_auto_unsubscribe (Reachable.init (Int.ofNat bufferSize) 1000) rfl⟩

/-- C8: per subscriber the events are delivered first-in first-out: a
sequence of publishes appends to the subscriber channel, in publish order,
exactly the subsequence of events that were not dropped, and draining the
channel returns its queue in that order. -/
theorem C8_fifo_order {T : Type} {b : Broker T} {j : Nat}
    {c : Channel (Event T)} (hr : Reachable T b) (hd : b.done = false)
    (hid : j ∈ b.subs) (hl : lookupCh j b.chans = some c)
    (ps : List (EventType × T)) :
    ∃ b2 l, publishSeq b ps = some b2 ∧
      List.Sublist l (ps.map fun p => Event.mk p.1 p.2) ∧
      lookupCh j b2.chans = some { c with buf := c.buf ++ l } ∧
      Channel.recvList { c with buf := c.buf ++ l } (c.buf ++ l).length =
        c.buf ++ l := by
  obtain ⟨b2, l, h1, h2, h3⟩ :=
    publishSeq_fifo ps b c j (reachable_inv hr) hd hid hl
  exact ⟨b2, l, h1, h2, h3, recvList_buf (c.buf ++ l) c.cap c.closed⟩

theorem C8_witness :
    ((NewBroker Nat).Subscribe.1.done = false) ∧
    0 ∈ (NewBroker Nat).Subscribe.1.subs ∧
    lookupCh 0 (NewBroker Nat).Subscribe.1.chans =
      some ⟨[], bufferSize, false⟩ ∧
    ∃ b2 l, publishSeq (NewBroker Nat).Subscribe.1
        [(CreatedEvent, 1), (FinishedEvent, 2)] = some b2 ∧
      List.Sublist l ([(CreatedEvent, 1), (FinishedEvent, 2)].map
        fun p => Event.mk p.1 p.2) ∧
      lookupCh 0 b2.chans =
        some { (⟨[], bufferSize, false⟩ : Channel (Event Nat)) with
          buf := ([] : List (Event Nat)) ++ l } ∧
      Channel.recvList { (⟨[], bufferSize, false⟩ : Channel (Event Nat)) with
          buf := ([] : List (Event Nat)) ++ l } (([] : List (Event Nat)) ++ l).length =
        ([] : List (Event Nat)) ++ l :=
  ⟨rfl, by decide, by decide,
    C8_fifo_order (j := 0) (c := ⟨[], bufferSize, false⟩)
      (Reachable.subscribe (Reachable.init (Int.ofNat bufferSize) 1000))
      rfl (by decide) (by decide) [(CreatedEvent, 1), (FinishedEvent, 2)]⟩

/-- C9: the maxEvents parameter is advisory bookkeeping only: two brokers
built with the same buffer capacity and different maxEvents produce
observably identical results on every operation sequence; Subscribe on a
running broker always registers (no rejection at any count), and the
reported subscriber count depends only on the observable state. -/
theorem C9_maxEvents_advisory (T : Type) (cap m1 m2 : Int) (ops : List (Op T)) :
    Option.map Broker.obs (runOps (NewBrokerWithOptions T cap m1) ops) =
      Option.map Broker.obs (runOps (NewBrokerWithOptions T cap m2) ops) ∧
    (∀ b : Broker T, b.done = false →
      b.Subscribe.1.subCount = b.subCount + 1 ∧
      b.Subscribe.2 ∈ b.Subscribe.1.subs) ∧
    ∀ b1 b2 : Broker T, b1.obs = b2.obs →
      b1.GetSubscriberCount = b2.GetSubscriberCount := by
  refine ⟨?_, ?_, ?_⟩
  · have h2 : NewBrokerWithOptions T cap m2 =
        setMax (NewBrokerWithOptions T cap m1) m2 := rfl
    rw [h2, runOps_setMax]
    cases runOps (NewBrokerWithOptions T cap m1) ops <;> rfl
  · intro b hdb
    constructor
    · simp [Broker.Subscribe, hdb]
    · simp [Broker.Subscribe, hdb]
  · intro b1 b2 hobs
    exact (obs_fields hobs).2.2.2.1

theorem C9_witness :
    (Option.map Broker.obs (runOps (NewBrokerWithOptions Nat 8 5)
        [Op.subscribe, Op.publish CreatedEvent 3, Op.watcher 0, Op.shutdown]) =
      Option.map Broker.obs (runOps (NewBrokerWithOptions Nat 8 500)
        [Op.subscribe, Op.publish CreatedEvent 3, Op.watcher 0, Op.shutdown])) ∧
    (NewBroker Nat).done = false ∧
    (NewBroker Nat).Subscribe.1.subCount = (NewBroker Nat).subCount + 1 ∧
    (NewBroker Nat).Subscribe.2 ∈ (NewBroker Nat).Subscribe.1.subs :=
  ⟨(C9_maxEvents_advisory Nat 8 5 500
      [Op.subscribe, Op.publish CreatedEvent 3, Op.watcher 0, Op.shutdown]).1,
    rfl,
    (C9_maxEvents_advisory Nat 8 5 500 []).2.1 (NewBroker Nat) rfl⟩

/-- C10: the subscriber counter always equals the size of the active set
on every reachable broker state, and GetSubscriberCount reports exactly
that size. -/
theorem C10_subscriber_count_invariant {T : Type} {b : Broker T}
    (hr : Reachable T b) :
    b.subCount = (b.subs.length : Int) ∧
    b.GetSubscriberCount = (b.subs.length : Int) :=
  ⟨(reachable_inv hr).count_eq, (reachable_inv hr).count_eq⟩

theorem C10_witness :
    (NewBroker Nat).Subscribe.1.subCount =
      ((NewBroker Nat).Subscribe.1.subs.length : Int) ∧
    (NewBroker Nat).Subscribe.1.GetSubscriberCount =
      ((NewBroker Nat).Subscribe.1.subs.length : Int) :=
  C10_subscriber_count_invariant
    (Reachable.subscribe (Reachable.init (Int.ofNat bufferSize) 1000))

/-- C4 (the code has a fault the claim denies): in every interleaving the
double-close branches stay unreachable - the re-check of the shutdown
signal under the lock protects both close paths - but the
send-on-closed-channel fault is reachable: Publish snapshots the
subscriber set under the read lock and releases it, the subscriber's
watcher then removes the channel from the active set and closes it, and
the pending send hits the closed channel. -/
theorem C4_no_double_close_but_send_on_closed_reachable :
    (∀ (T : Type) (s : Sys T), SysReachable T s → s.closeFault = false) ∧
    SysReachable Nat raceTrace ∧ raceTrace.sendFault = true := by
  refine ⟨fun T s h => (sysReachable_inv h).2, ?_, ?_⟩
  · exact SysReachable.sendStep 0
      (SysReachable.watcher 0
        (SysReachable.publishStart CreatedEvent 3
          (SysReachable.subscribe (SysReachable.init 64 1000))))
  · decide

end Pubsub
